import Mathlib

/-!
Verification of the HTML-to-text normalizer (`parse_html_to_text` / `parse_node`)
and the bold-marker run decoder (the per-line loop of
`create_word_document_in_memory`) from `src/CRetriever.py`.

Strings are modelled as `List Char` (a Python `str` is a sequence of
characters); Python whitespace stripping is modelled over the ASCII
whitespace characters recognised by `str.strip()`.
-/

namespace CRetriever

/-- The ASCII whitespace characters stripped by Python `str.strip()` /
`str.lstrip()` / `str.rstrip()` (space, tab, newline, carriage return,
vertical tab, form feed). -/
def pyWS (c : Char) : Bool :=
  c = ' ' || c = '\t' || c = '\n' || c = '\r' || c = '\x0b' || c = '\x0c'

/-- Python `str.lstrip()`: drop leading whitespace. -/
def lstripL (cs : List Char) : List Char := cs.dropWhile pyWS

/-- Python `str.rstrip()`: drop trailing whitespace. -/
def rstripL (cs : List Char) : List Char := (cs.reverse.dropWhile pyWS).reverse

/-- Python `str.strip()`: drop leading and trailing whitespace. -/
def stripL (cs : List Char) : List Char := lstripL (rstripL cs)

/-- Python `" " * n`. -/
def spacesL (n : Nat) : List Char := List.replicate n ' '

/-- Python `"\n".join(lines)`. -/
def joinLines : List (List Char) → List Char
  | [] => []
  | [l] => l
  | l :: l2 :: ls => l ++ '\n' :: joinLines (l2 :: ls)

/-- Python `s.split("\n")`; on the empty string it returns `[""]`. -/
def splitLinesPy : List Char → List (List Char)
  | [] => [[]]
  | c :: cs =>
    if c = '\n' then [] :: splitLinesPy cs
    else
      match splitLinesPy cs with
      | [] => [[c]]
      | l :: ls => (c :: l) :: ls

/-- Python truthiness test `line.strip() != ""` used by the final filter. -/
def nonBlank (l : List Char) : Bool := !(stripL l).isEmpty

mutual
/-- A BeautifulSoup node: a `NavigableString` (raw text) or a `Tag` with a
name, attributes (only `href` is ever consulted) and ordered children. -/
inductive Node where
  | text : String → Node
  | elem : String → List (String × String) → NodeList → Node

/-- An ordered sequence of child nodes (`node.children`). -/
inductive NodeList where
  | nil : NodeList
  | cons : Node → NodeList → NodeList
end

/-- Build a `NodeList` from a Lean list, for writing concrete documents. -/
def nodes : List Node → NodeList
  | [] => .nil
  | n :: ns => .cons n (nodes ns)

/-- Python `node.get("href", "")`: first value bound to the key, else `""`. -/
def getAttr : List (String × String) → String → String
  | [], _ => ""
  | (k, v) :: rest, key => if k = key then v else getAttr rest key

mutual
/-- BeautifulSoup `node.get_text(strip=True)`: concatenation of each
descendant text node's content with its ends stripped. -/
def getTextStrip : Node → List Char
  | .text s => stripL s.data
  | .elem _ _ cs => getTextStripList cs

def getTextStripList : NodeList → List Char
  | .nil => []
  | .cons n ns => getTextStrip n ++ getTextStripList ns
end

mutual
/-- `parse_node(node, indent, list_type)` from `parse_html_to_text`
(src/CRetriever.py lines 129-169): returns the list of emitted lines. -/
def parse_node : Node → Nat → Option String → List (List Char)
  | .text s, indent, _ =>
    let t := stripL s.data
    if t.isEmpty then [] else [spacesL indent ++ t]
  | .elem name attrs children, indent, listType =>
    if name = "ul" || name = "ol" then
      parse_children children indent (some name)
    else if name = "li" then
      let bullet : List Char := if listType ≠ some "ol" then "- ".data else "1. ".data
      match parse_children children (indent + 2) none with
      | [] => [spacesL indent ++ bullet]
      | first :: rest =>
        (spacesL indent ++ (bullet ++ lstripL first)) ::
          rest.map (fun line => spacesL (indent + 2) ++ line)
    else if name = "a" then
      let linkText := getTextStripList children
      let href := getAttr attrs "href"
      let mdLink :=
        if href ≠ "" then "[".data ++ linkText ++ "](".data ++ href.data ++ ")".data
        else linkText
      [spacesL indent ++ mdLink]
    else if name = "br" then [[]]
    else if name = "p" || name = "div" then
      match parse_children children indent listType with
      | [] => []
      | first :: rest => (first :: rest) ++ [[]]
    else
      parse_children children indent listType

/-- The `for child in node.children: lines.extend(parse_node(...))` loops. -/
def parse_children : NodeList → Nat → Option String → List (List Char)
  | .nil, _, _ => []
  | .cons n ns, indent, listType =>
    parse_node n indent listType ++ parse_children ns indent listType
end

/-- `final_lines = [line.rstrip() for line in parsed_lines if line.strip() != ""]`
(src/CRetriever.py line 174), applied to the lines collected over the
top-level children of the parsed document. -/
def finalLines (forest : NodeList) : List (List Char) :=
  ((parse_children forest 0 none).filter nonBlank).map rstripL

/-- `parse_html_to_text` (src/CRetriever.py lines 126-175), from the parsed
node forest (the children of the soup) to the returned string. -/
def parse_html_to_text (forest : NodeList) : List Char :=
  joinLines (finalLines forest)

example : parse_html_to_text (nodes [.elem "ul" [] (nodes
    [.elem "li" [] (nodes [.text "A"]), .elem "li" [] (nodes [.text "B"])])]) =
    "- A\n- B".data := by decide

example : parse_html_to_text (nodes [.elem "ul" [] (nodes
    [.elem "li" [] (nodes [.text "A",
      .elem "ul" [] (nodes [.elem "li" [] (nodes [.text "B"])])])])]) =
    "- A\n    - B".data := by decide

example : parse_html_to_text (nodes [.text "a\n \nb"]) = "a\n \nb".data := by decide

example : parse_html_to_text (nodes [.elem "a" [("href", "http://x")]
    (nodes [.text "click"])]) = "[click](http://x)".data := by decide

/-!
## The bold-marker decoder

`create_word_document_in_memory` (src/CRetriever.py lines 504-527) splits the
content on `"\n"` and, per line, iterates `re.finditer` over the pattern
`\*\*(.+?)\*\*`.  The match semantics of that pattern are embedded below:
a match starts at the earliest position opening with `**`, its interior is
the shortest non-empty run of non-newline characters followed by `**`
(`.` does not match `\n` and `+?` is lazy).
-/

/-- Scan for the earliest occurrence of two consecutive asterisks reachable
without crossing a newline (the characters before it are consumed by `.+?`):
returns the characters before the pair and the characters after it. -/
def findPair : List Char → Option (List Char × List Char)
  | '*' :: '*' :: rest => some ([], rest)
  | c :: rest =>
    if c = '\n' then none
    else (findPair rest).map (fun p => (c :: p.1, p.2))
  | [] => none

/-- Does `\*\*(.+?)\*\*` match at the very start of `cs`?  If so, return the
(lazy, hence shortest) interior and the characters after the match. -/
def matchAt : List Char → Option (List Char × List Char)
  | '*' :: '*' :: c :: rest =>
    if c = '\n' then none
    else
      match findPair rest with
      | some (mid, after) => some (c :: mid, after)
      | none => none
  | _ => none

/-- `re.finditer` step: the leftmost match of `\*\*(.+?)\*\*` in `cs`,
as (text before the match, match interior, text after the match). -/
def findMatch : List Char → Option (List Char × List Char × List Char)
  | [] => none
  | c :: cs =>
    match matchAt (c :: cs) with
    | some (i, r) => some ([], i, r)
    | none => (findMatch cs).map (fun p => (c :: p.1, p.2.1, p.2.2))

/-- Fuel-indexed run decoder; `fuel ≥ cs.length` always suffices because each
match consumes at least the four marker characters (see `decodeAux_fuel`). -/
def decodeAux : Nat → List Char → List (List Char × Bool)
  | 0, cs => if cs.isEmpty then [] else [(cs, false)]
  | fuel + 1, cs =>
    match findMatch cs with
    | none => if cs.isEmpty then [] else [(cs, false)]
    | some (p, i, r) =>
      (if p.isEmpty then [] else [(p, false)]) ++ (i, true) :: decodeAux fuel r

/-- The per-line run decoder of `create_word_document_in_memory`
(src/CRetriever.py lines 513-527): the ordered list of `(text, bold)` runs
added to the paragraph for one line. -/
def decodeLine (cs : List Char) : List (List Char × Bool) := decodeAux cs.length cs

/-- Concatenation of the runs' text in order. -/
def concatTexts : List (List Char × Bool) → List Char
  | [] => []
  | (t, _) :: rest => t ++ concatTexts rest

/-- Re-insert the two-character `**` markers around each bold run and
concatenate. -/
def reencodeRuns : List (List Char × Bool) → List Char
  | [] => []
  | (t, b) :: rest =>
    (if b then "**".data ++ t ++ "**".data else t) ++ reencodeRuns rest

example : decodeLine "Hello **world** today".data =
    [("Hello ".data, false), ("world".data, true), (" today".data, false)] := by decide

example : decodeLine "**unterminated".data = [("**unterminated".data, false)] := by
  decide

example : decodeLine "".data = [] := by decide

example : decodeLine "****x**".data = [("**x".data, true)] := by decide

example : decodeLine "***a**".data = [("*a".data, true)] := by decide

example : decodeLine "**x*y**z**".data = [("x*y".data, true), ("z**".data, false)] := by
  decide

/-! ## Basic lemmas on whitespace stripping -/

theorem dropWhile_head_false {α : Type} (p : α → Bool) :
    ∀ (cs : List α) (c : α) (t : List α), cs.dropWhile p = c :: t → p c = false := by
  intro cs
  induction cs with
  | nil => intro c t h; simp [List.dropWhile] at h
  | cons x xs ih =>
    intro c t h
    by_cases hx : p x
    · simp [List.dropWhile, hx] at h
      exact ih c t h
    · simp [List.dropWhile, hx] at h
      obtain ⟨h1, _⟩ := h
      rw [← h1]
      exact Bool.of_not_eq_true hx

theorem dropWhile_cons_false {α : Type} (p : α → Bool) (c : α) (cs : List α)
    (h : p c = false) : (c :: cs).dropWhile p = c :: cs := by
  simp [List.dropWhile, h]

theorem dropWhile_idem {α : Type} (p : α → Bool) (cs : List α) :
    (cs.dropWhile p).dropWhile p = cs.dropWhile p := by
  cases h : cs.dropWhile p with
  | nil => rfl
  | cons c t => exact dropWhile_cons_false p c t (dropWhile_head_false p cs c t h)

theorem dropWhile_append_of_ne_nil {α : Type} (p : α → Bool) :
    ∀ (a b : List α), a.dropWhile p ≠ [] →
      (a ++ b).dropWhile p = a.dropWhile p ++ b := by
  intro a
  induction a with
  | nil => intro b h; exact absurd rfl h
  | cons x xs ih =>
    intro b h
    by_cases hx : p x
    · rw [List.dropWhile_cons, if_pos hx] at h
      rw [List.cons_append, List.dropWhile_cons, if_pos hx,
        List.dropWhile_cons, if_pos hx]
      exact ih b h
    · rw [List.cons_append, List.dropWhile_cons, if_neg hx,
        List.dropWhile_cons, if_neg hx, List.cons_append]

theorem dropWhile_append_of_nil {α : Type} (p : α → Bool) :
    ∀ (a b : List α), a.dropWhile p = [] →
      (a ++ b).dropWhile p = b.dropWhile p := by
  intro a
  induction a with
  | nil => intro b _; rfl
  | cons x xs ih =>
    intro b h
    by_cases hx : p x
    · simp only [List.dropWhile, hx] at h
      simp only [List.cons_append, List.dropWhile, hx]
      exact ih b h
    · have hx' : p x = false := Bool.of_not_eq_true hx
      rw [dropWhile_cons_false p x xs hx'] at h
      exact absurd h (by simp)

theorem rstripL_idem (cs : List Char) : rstripL (rstripL cs) = rstripL cs := by
  unfold rstripL
  rw [List.reverse_reverse, dropWhile_idem]

theorem rstripL_nil : rstripL [] = [] := rfl

theorem rstripL_append_of_ne_nil (x y : List Char) (h : rstripL y ≠ []) :
    rstripL (x ++ y) = x ++ rstripL y := by
  unfold rstripL at h ⊢
  have hd : y.reverse.dropWhile pyWS ≠ [] := by
    intro hnil; rw [hnil] at h; exact h rfl
  rw [List.reverse_append, dropWhile_append_of_ne_nil pyWS _ _ hd,
    List.reverse_append, List.reverse_reverse]

theorem rstripL_cons_of_self (c : Char) (cs : List Char)
    (h1 : rstripL cs = cs) (h2 : cs ≠ []) : rstripL (c :: cs) = c :: cs := by
  have : rstripL ([c] ++ cs) = [c] ++ rstripL cs := by
    apply rstripL_append_of_ne_nil
    rw [h1]; exact h2
  simpa [h1] using this

theorem rstripL_prefix (cs : List Char) :
    ∃ ws, cs = rstripL cs ++ ws ∧ ∀ c ∈ ws, pyWS c = true := by
  refine ⟨(cs.reverse.takeWhile pyWS).reverse, ?_, ?_⟩
  · conv_lhs => rw [← List.reverse_reverse cs,
      ← List.takeWhile_append_dropWhile (p := pyWS) (l := cs.reverse)]
    rw [List.reverse_append]
    rfl
  · intro c hc
    rw [List.mem_reverse] at hc
    exact List.mem_takeWhile_imp hc

theorem rstripL_head (cs : List Char) (h : rstripL cs ≠ []) :
    (rstripL cs).head? = cs.head? := by
  obtain ⟨ws, hws, _⟩ := rstripL_prefix cs
  cases hr : rstripL cs with
  | nil => exact absurd hr h
  | cons c t =>
    rw [hws, hr]
    rfl

theorem lstripL_head_false (cs : List Char) (c : Char) (t : List Char)
    (h : lstripL cs = c :: t) : pyWS c = false :=
  dropWhile_head_false pyWS cs c t h

theorem stripL_head_false (cs : List Char) (c : Char) (t : List Char)
    (h : stripL cs = c :: t) : pyWS c = false :=
  lstripL_head_false _ c t h

theorem lstripL_cons_false (c : Char) (cs : List Char) (h : pyWS c = false) :
    lstripL (c :: cs) = c :: cs :=
  dropWhile_cons_false pyWS c cs h

theorem stripL_rstripL (cs : List Char) : stripL (rstripL cs) = stripL cs := by
  unfold stripL
  rw [rstripL_idem]

theorem rstripL_eq_nil_strip (cs : List Char) (h : rstripL cs = []) :
    stripL cs = [] := by
  unfold stripL
  rw [h]
  rfl

/-- A list starting with a non-whitespace character strips to a cons with the
same head, hence is non-blank. -/
theorem stripL_cons_head (c : Char) (cs : List Char) (h : pyWS c = false) :
    ∃ t, stripL (c :: cs) = c :: t := by
  unfold stripL
  cases hr : rstripL cs with
  | nil =>
    have : rstripL (c :: cs) = [c] := by
      unfold rstripL at hr ⊢
      have hd : cs.reverse.dropWhile pyWS = [] := by
        cases hd : cs.reverse.dropWhile pyWS with
        | nil => rfl
        | cons a b => rw [hd] at hr; simp at hr
      rw [List.reverse_cons, dropWhile_append_of_nil pyWS _ _ hd,
        dropWhile_cons_false pyWS c [] h]
      rfl
    rw [this, lstripL_cons_false c [] h]
    exact ⟨[], rfl⟩
  | cons a b =>
    have hne : rstripL cs ≠ [] := by rw [hr]; simp
    have : rstripL (c :: cs) = c :: rstripL cs := by
      have := rstripL_append_of_ne_nil [c] cs hne
      simpa using this
    rw [this, lstripL_cons_false c _ h]
    exact ⟨rstripL cs, rfl⟩

theorem nonBlank_cons_of_head (c : Char) (cs : List Char) (h : pyWS c = false) :
    nonBlank (c :: cs) = true := by
  obtain ⟨t, ht⟩ := stripL_cons_head c cs h
  unfold nonBlank
  rw [ht]
  rfl

/-- Prepending a whitespace character does not change `strip`. -/
theorem stripL_cons_ws (c : Char) (cs : List Char) (h : pyWS c = true) :
    stripL (c :: cs) = stripL cs := by
  cases hr : rstripL cs with
  | nil =>
    have h1 : rstripL (c :: cs) = [] := by
      unfold rstripL at hr ⊢
      have hd : cs.reverse.dropWhile pyWS = [] := by
        cases hd : cs.reverse.dropWhile pyWS with
        | nil => rfl
        | cons a b => rw [hd] at hr; simp at hr
      rw [List.reverse_cons, dropWhile_append_of_nil pyWS _ _ hd]
      simp [List.dropWhile_cons, h]
    rw [rstripL_eq_nil_strip _ h1, rstripL_eq_nil_strip _ hr]
  | cons a b =>
    have hne : rstripL cs ≠ [] := by rw [hr]; simp
    have h1 : rstripL (c :: cs) = c :: rstripL cs := by
      have := rstripL_append_of_ne_nil [c] cs hne
      simpa using this
    unfold stripL
    rw [h1]
    unfold lstripL
    rw [List.dropWhile_cons, if_pos h]

theorem stripL_spaces_append (n : Nat) (l : List Char) :
    stripL (spacesL n ++ l) = stripL l := by
  induction n with
  | zero => rfl
  | succ k ih =>
    have : spacesL (k + 1) ++ l = ' ' :: (spacesL k ++ l) := by
      unfold spacesL
      rw [List.replicate_succ]
      rfl
    rw [this, stripL_cons_ws _ _ (by decide)]
    exact ih

/-! ## Lemmas on the bold-marker decoder -/

theorem findPair_decomp :
    ∀ (cs p r : List Char), findPair cs = some (p, r) →
      cs = p ++ '*' :: '*' :: r := by
  intro cs
  induction cs using findPair.induct with
  | case1 rest =>
    intro p r h
    rw [findPair] at h
    simp at h
    obtain ⟨h1, h2⟩ := h
    rw [h1, h2]
    rfl
  | case2 tail hguard =>
    intro p r h
    rw [findPair] at h
    · simp at h
    · exact hguard
  | case3 c rest hguard hne ih =>
    intro p r h
    rw [findPair] at h
    · simp [hne] at h
      obtain ⟨a, ha, hp⟩ := h
      rw [← hp, List.cons_append]
      rw [ih a r ha]
    · exact hguard
  | case4 =>
    intro p r h
    simp [findPair] at h

theorem matchAt_decomp (cs i r : List Char) (h : matchAt cs = some (i, r)) :
    cs = '*' :: '*' :: i ++ '*' :: '*' :: r ∧ i ≠ [] := by
  unfold matchAt at h
  split at h
  case h_1 c rest =>
    split at h
    · exact absurd h (by simp)
    · split at h
      case h_1 mid after heq =>
        simp at h
        obtain ⟨hi, hr⟩ := h
        rw [← hi, ← hr]
        have := findPair_decomp rest mid after heq
        rw [this]
        exact ⟨rfl, by simp⟩
      case h_2 => exact absurd h (by simp)
  case h_2 => exact absurd h (by simp)

theorem findMatch_decomp :
    ∀ (cs p i r : List Char), findMatch cs = some (p, i, r) →
      cs = p ++ '*' :: '*' :: i ++ '*' :: '*' :: r ∧ i ≠ [] := by
  intro cs
  induction cs with
  | nil => intro p i r h; simp [findMatch] at h
  | cons c t ih =>
    intro p i r h
    rw [findMatch] at h
    split at h
    case h_1 i0 r0 heq =>
      simp at h
      obtain ⟨hp, hi, hr⟩ := h
      obtain ⟨hcs, hne⟩ := matchAt_decomp (c :: t) i0 r0 heq
      subst hp
      subst hi
      subst hr
      exact ⟨by rw [hcs]; rfl, hne⟩
    case h_2 =>
      simp at h
      obtain ⟨p1, hfm, hp⟩ := h
      obtain ⟨hcs, hne⟩ := ih p1 i r hfm
      refine ⟨?_, hne⟩
      rw [← hp]
      simp [hcs, List.append_assoc]

/-- A match strictly shrinks the remaining text (by at least five characters). -/
theorem findMatch_length (cs p i r : List Char) (h : findMatch cs = some (p, i, r)) :
    r.length < cs.length := by
  obtain ⟨hcs, _⟩ := findMatch_decomp cs p i r h
  rw [hcs]
  simp [List.length_append]
  omega

/-- Any fuel of at least `cs.length` computes the same run list. -/
theorem decodeAux_fuel :
    ∀ (f1 f2 : Nat) (cs : List Char), cs.length ≤ f1 → cs.length ≤ f2 →
      decodeAux f1 cs = decodeAux f2 cs := by
  intro f1
  induction f1 with
  | zero =>
    intro f2 cs h1 h2
    have : cs = [] := by
      cases cs with
      | nil => rfl
      | cons a b => simp at h1
    rw [this]
    cases f2 with
    | zero => rfl
    | succ k =>
      rw [decodeAux, decodeAux]
      simp [findMatch]
  | succ k ih =>
    intro f2 cs h1 h2
    cases f2 with
    | zero =>
      have : cs = [] := by
        cases cs with
        | nil => rfl
        | cons a b => simp at h2
      rw [this, decodeAux, decodeAux]
      simp [findMatch]
    | succ m =>
      cases hfm : findMatch cs with
      | none => simp only [decodeAux, hfm]
      | some pir =>
        obtain ⟨p, i, r⟩ := pir
        have hlen := findMatch_length cs p i r hfm
        simp only [decodeAux, hfm]
        rw [ih m r (by omega) (by omega)]

/-- One step of the decoder: emit the text before the match when non-empty,
then the interior as a bold run, then continue after the match. -/
theorem decodeLine_step (cs p i r : List Char) (h : findMatch cs = some (p, i, r)) :
    decodeLine cs =
      (if p.isEmpty then [] else [(p, false)]) ++ (i, true) :: decodeLine r := by
  have hlen := findMatch_length cs p i r h
  unfold decodeLine
  cases hcs : cs with
  | nil => rw [hcs] at h; simp [findMatch] at h
  | cons c t =>
    rw [← hcs]
    have hl : cs.length = t.length + 1 := by rw [hcs]; rfl
    rw [hl]
    simp only [decodeAux, h]
    rw [decodeAux_fuel t.length r.length r (by omega) (le_refl _)]

/-- A non-empty line without a match decodes to one non-bold run. -/
theorem decodeLine_noMatch (cs : List Char) (hm : findMatch cs = none)
    (hne : cs ≠ []) : decodeLine cs = [(cs, false)] := by
  unfold decodeLine
  cases hcs : cs with
  | nil => exact absurd hcs hne
  | cons c t =>
    rw [← hcs]
    have hl : cs.length = t.length + 1 := by rw [hcs]; rfl
    rw [hl]
    simp only [decodeAux, hm]
    simp [hcs]

theorem decodeLine_nil : decodeLine [] = [] := rfl

theorem reencodeRuns_append (a b : List (List Char × Bool)) :
    reencodeRuns (a ++ b) = reencodeRuns a ++ reencodeRuns b := by
  induction a with
  | nil => rfl
  | cons x xs ih =>
    obtain ⟨t, bo⟩ := x
    rw [List.cons_append, reencodeRuns, reencodeRuns, ih, List.append_assoc]
    simp [List.append_assoc]

/-- Re-inserting the markers around the bold runs reconstructs the line. -/
theorem reencode_decodeAux :
    ∀ (fuel : Nat) (cs : List Char), cs.length ≤ fuel →
      reencodeRuns (decodeAux fuel cs) = cs := by
  intro fuel
  induction fuel with
  | zero =>
    intro cs h
    have : cs = [] := by
      cases cs with
      | nil => rfl
      | cons a b => simp at h
    rw [this]
    rfl
  | succ k ih =>
    intro cs h
    rw [decodeAux]
    cases hfm : findMatch cs with
    | none =>
      by_cases hcs : cs.isEmpty
      · rw [if_pos hcs]
        have : cs = [] := by cases cs <;> simp at hcs ⊢
        rw [this]
        rfl
      · rw [if_neg hcs]
        rw [reencodeRuns, reencodeRuns]
        simp
    | some pir =>
      obtain ⟨p, i, r⟩ := pir
      obtain ⟨hcs, _⟩ := findMatch_decomp cs p i r hfm
      have hlen := findMatch_length cs p i r hfm
      rw [reencodeRuns_append, reencodeRuns]
      have hrest : reencodeRuns (decodeAux k r) = r := ih r (by omega)
      have hpre : reencodeRuns (if p.isEmpty then [] else [(p, false)]) = p := by
        by_cases hp : p.isEmpty
        · rw [if_pos hp]
          have : p = [] := by cases p <;> simp at hp ⊢
          rw [this]
          rfl
        · rw [if_neg hp, reencodeRuns, reencodeRuns]
          simp
      rw [hpre, hrest, hcs]
      simp

theorem reencode_decodeLine (cs : List Char) :
    reencodeRuns (decodeLine cs) = cs :=
  reencode_decodeAux cs.length cs (le_refl _)

/-- Does the list contain two consecutive asterisks anywhere? -/
def hasStarPair : List Char → Bool
  | '*' :: '*' :: _ => true
  | _ :: rest => hasStarPair rest
  | [] => false

theorem hasStarPair_ne_nil (cs : List Char) (h : hasStarPair cs = true) :
    cs ≠ [] := by
  intro hnil
  rw [hnil] at h
  simp [hasStarPair] at h

/-! ## Lemmas on the normalizer -/

theorem head_filter_eq_find {α : Type} (p : α → Bool) (xs : List α) :
    (xs.filter p).head? = xs.find? p := by
  induction xs with
  | nil => rfl
  | cons x t ih =>
    by_cases h : p x
    · rw [List.filter_cons_of_pos h, List.find?_cons_of_pos _ h]
      rfl
    · rw [List.filter_cons_of_neg (by simpa using h),
        List.find?_cons_of_neg _ (by simpa using h)]
      exact ih

/-- Does the line start with a non-whitespace character? -/
def headNotWS : List Char → Bool
  | [] => false
  | c :: _ => !pyWS c

mutual
theorem getText_head_node : ∀ (n : Node) (c : Char) (t : List Char),
    getTextStrip n = c :: t → pyWS c = false
  | .text s, c, t => by
    intro h
    rw [getTextStrip] at h
    exact stripL_head_false s.data c t h
  | .elem nm attrs cs, c, t => by
    intro h
    rw [getTextStrip] at h
    exact getText_head_list cs c t h

theorem getText_head_list : ∀ (ns : NodeList) (c : Char) (t : List Char),
    getTextStripList ns = c :: t → pyWS c = false
  | .nil, c, t => by
    intro h
    rw [getTextStripList] at h
    exact absurd h (by simp)
  | .cons n ns, c, t => by
    intro h
    rw [getTextStripList] at h
    cases hn : getTextStrip n with
    | nil =>
      rw [hn, List.nil_append] at h
      exact getText_head_list ns c t h
    | cons a b =>
      rw [hn, List.cons_append] at h
      have ha : a = c := by
        have := List.head_eq_of_cons_eq h
        exact this
      rw [← ha]
      exact getText_head_node n a b hn
end

mutual
/-- At indent 0, the first non-blank line a node emits starts with a
non-whitespace character (list items begin with their bullet, text and link
lines begin with stripped text). -/
theorem firstNB_node : ∀ (n : Node) (t : Option String) (l : List Char),
    (parse_node n 0 t).find? nonBlank = some l → headNotWS l = true
  | .text s, t, l => by
    intro h
    rw [parse_node] at h
    by_cases he : (stripL s.data).isEmpty
    · rw [if_pos he] at h
      simp at h
    · rw [if_neg he] at h
      cases hs : stripL s.data with
      | nil => rw [hs] at he; simp at he
      | cons c t' =>
        have hc : pyWS c = false := stripL_head_false s.data c t' hs
        have hline : spacesL 0 ++ stripL s.data = c :: t' := by
          rw [hs]; rfl
        rw [hline, List.find?_cons_of_pos _ (nonBlank_cons_of_head c t' hc)] at h
        have : c :: t' = l := by injection h
        rw [← this, headNotWS, hc]
        rfl
  | .elem name attrs children, t, l => by
    intro h
    by_cases hul : name = "ul"
    · subst hul
      simp only [parse_node] at h
      simp at h
      exact firstNB_list children (some "ul") l h
    · by_cases hol : name = "ol"
      · subst hol
        simp only [parse_node] at h
        simp at h
        exact firstNB_list children (some "ol") l h
      · by_cases hli : name = "li"
        · subst hli
          simp only [parse_node] at h
          simp at h
          cases hsub : parse_children children (0 + 2) none with
          | nil =>
            rw [hsub] at h
            by_cases ht : t = some "ol"
            · simp [ht] at h
              rw [← h.2]
              rfl
            · simp [ht] at h
              rw [← h.2]
              rfl
          | cons first rest =>
            rw [hsub] at h
            by_cases ht : t = some "ol"
            · simp [ht] at h
              rcases h with ⟨h1, h2⟩ | ⟨h1, h2⟩
              · rw [← h2]
                rfl
              · exfalso
                have hpos : nonBlank (spacesL 0 ++ '1' :: '.' :: ' ' :: lstripL first) = true :=
                  nonBlank_cons_of_head '1' _ (by decide)
                rw [hpos] at h1
                simp at h1
            · simp [ht] at h
              rcases h with ⟨h1, h2⟩ | ⟨h1, h2⟩
              · rw [← h2]
                rfl
              · exfalso
                have hpos : nonBlank (spacesL 0 ++ '-' :: ' ' :: lstripL first) = true :=
                  nonBlank_cons_of_head '-' _ (by decide)
                rw [hpos] at h1
                simp at h1
        · by_cases ha : name = "a"
          · subst ha
            simp only [parse_node] at h
            simp at h
            by_cases hh : getAttr attrs "href" = ""
            · simp [hh] at h
              cases hg : getTextStripList children with
              | nil =>
                rw [hg] at h
                exact absurd h.1 (by decide)
              | cons c t' =>
                rw [hg] at h
                have hc : pyWS c = false := getText_head_list children c t' hg
                rw [← h.2]
                show (!pyWS c) = true
                rw [hc]
                rfl
            · simp [hh] at h
              rw [← h.2]
              rfl
          · by_cases hbr : name = "br"
            · subst hbr
              simp only [parse_node] at h
              simp at h
              exact absurd h.1 (by decide)
            · by_cases hp : name = "p"
              · subst hp
                simp only [parse_node] at h
                simp at h
                cases hsub : parse_children children 0 t with
                | nil => rw [hsub] at h; simp at h
                | cons first rest =>
                  rw [hsub] at h
                  have hred : List.find? nonBlank
                      (match first :: rest with
                      | [] => ([] : List (List Char))
                      | first :: rest => first :: (rest ++ [[]])) =
                      List.find? nonBlank ((first :: rest) ++ [[]]) := rfl
                  rw [hred, List.find?_append] at h
                  have hnil : List.find? nonBlank [([] : List Char)] = none := by decide
                  rw [hnil, Option.or_none] at h
                  rw [← hsub] at h
                  exact firstNB_list children t l h
              · by_cases hd : name = "div"
                · subst hd
                  simp only [parse_node] at h
                  simp at h
                  cases hsub : parse_children children 0 t with
                  | nil => rw [hsub] at h; simp at h
                  | cons first rest =>
                    rw [hsub] at h
                    have hred : List.find? nonBlank
                        (match first :: rest with
                        | [] => ([] : List (List Char))
                        | first :: rest => first :: (rest ++ [[]])) =
                        List.find? nonBlank ((first :: rest) ++ [[]]) := rfl
                    rw [hred, List.find?_append] at h
                    have hnil : List.find? nonBlank [([] : List Char)] = none := by decide
                    rw [hnil, Option.or_none] at h
                    rw [← hsub] at h
                    exact firstNB_list children t l h
                · simp only [parse_node] at h
                  simp [hul, hol, hli, ha, hbr, hp, hd] at h
                  exact firstNB_list children t l h

theorem firstNB_list : ∀ (ns : NodeList) (t : Option String) (l : List Char),
    (parse_children ns 0 t).find? nonBlank = some l → headNotWS l = true
  | .nil, t, l => by
    intro h
    rw [parse_children] at h
    simp at h
  | .cons n ns, t, l => by
    intro h
    rw [parse_children, List.find?_append] at h
    cases hn : (parse_node n 0 t).find? nonBlank with
    | some l' =>
      rw [hn] at h
      simp at h
      rw [← h]
      exact firstNB_node n t l' hn
    | none =>
      rw [hn, Option.none_or] at h
      exact firstNB_list ns t l h
end

theorem rstrip_fix_of_last (ys : List Char) (c : Char) (h : pyWS c = false) :
    rstripL (ys ++ [c]) = ys ++ [c] := by
  unfold rstripL
  rw [List.reverse_append, List.reverse_singleton, List.singleton_append,
    dropWhile_cons_false pyWS c ys.reverse h, List.reverse_cons, List.reverse_reverse]

theorem rstrip_last_shape (cs : List Char) :
    rstripL cs = [] ∨ ∃ ys c, rstripL cs = ys ++ [c] ∧ pyWS c = false := by
  unfold rstripL
  cases hd : cs.reverse.dropWhile pyWS with
  | nil => exact Or.inl rfl
  | cons a b =>
    refine Or.inr ⟨b.reverse, a, ?_, dropWhile_head_false pyWS cs.reverse a b hd⟩
    rw [List.reverse_cons]

theorem rstripL_stripL (cs : List Char) : rstripL (stripL cs) = stripL cs := by
  rcases rstrip_last_shape cs with h | ⟨ys, c, hys, hc⟩
  · unfold stripL
    rw [h]
    rfl
  · unfold stripL lstripL
    rw [hys]
    cases hdy : ys.dropWhile pyWS with
    | nil =>
      rw [dropWhile_append_of_nil pyWS ys [c] hdy,
        dropWhile_cons_false pyWS c [] hc]
      exact rstrip_fix_of_last [] c hc
    | cons a b =>
      have hne : ys.dropWhile pyWS ≠ [] := by rw [hdy]; simp
      rw [dropWhile_append_of_ne_nil pyWS ys [c] hne, hdy]
      exact rstrip_fix_of_last (a :: b) c hc

theorem stripL_idem (cs : List Char) : stripL (stripL cs) = stripL cs := by
  conv_lhs => rw [stripL, rstripL_stripL cs]
  show lstripL (lstripL (rstripL cs)) = stripL cs
  unfold lstripL
  rw [dropWhile_idem]
  rfl

/-- Normalizing a bare text node returns its stripped content. -/
theorem round_text (t : List Char) :
    parse_html_to_text (nodes [Node.text (String.mk t)]) = stripL t := by
  unfold parse_html_to_text finalLines
  have hs : (String.mk t).data = t := rfl
  by_cases he : (stripL t).isEmpty
  · have ht : stripL t = [] := by
      cases hx : stripL t
      · rfl
      · rw [hx] at he; simp at he
    have hp : parse_children (nodes [Node.text (String.mk t)]) 0 none = [] := by
      simp [nodes, parse_children, parse_node, hs, he]
    rw [hp, ht]
    rfl
  · have hp : parse_children (nodes [Node.text (String.mk t)]) 0 none =
        [stripL t] := by
      simp [nodes, parse_children, parse_node, hs, he, spacesL]
    rw [hp]
    have hnb : nonBlank (stripL t) = true := by
      unfold nonBlank
      rw [stripL_idem]
      cases hx : stripL t
      · rw [hx] at he; simp at he
      · simp
    rw [List.filter_cons_of_pos hnb, List.filter_nil, List.map_cons, List.map_nil,
      rstripL_stripL]
    rfl

/-- Every line of the final list is non-empty, non-blank, and already
right-stripped. -/
theorem mem_finalLines (forest : NodeList) (l : List Char)
    (h : l ∈ finalLines forest) : l ≠ [] ∧ stripL l ≠ [] ∧ rstripL l = l := by
  unfold finalLines at h
  rw [List.mem_map] at h
  obtain ⟨m, hm, hl⟩ := h
  rw [List.mem_filter] at hm
  obtain ⟨_, hnb⟩ := hm
  have hsm : stripL m ≠ [] := by
    intro hx
    unfold nonBlank at hnb
    rw [hx] at hnb
    simp at hnb
  have hstrip : stripL l = stripL m := by rw [← hl, stripL_rstripL]
  have hrfix : rstripL l = l := by rw [← hl, rstripL_idem]
  refine ⟨?_, ?_, hrfix⟩
  · intro hx
    rw [hx] at hstrip
    exact hsm (by rw [← hstrip]; rfl)
  · rw [hstrip]
    exact hsm

theorem joinLines_cons (l : List Char) (ls : List (List Char)) :
    ∃ rest, joinLines (l :: ls) = l ++ rest := by
  cases ls with
  | nil => exact ⟨[], by rw [joinLines, List.append_nil]⟩
  | cons l2 t => exact ⟨'\n' :: joinLines (l2 :: t), rfl⟩

theorem rstrip_joinLines :
    ∀ (L : List (List Char)), (∀ l ∈ L, rstripL l = l ∧ l ≠ []) →
      rstripL (joinLines L) = joinLines L := by
  intro L
  induction L with
  | nil => intro _; rfl
  | cons l t ih =>
    intro hmem
    cases t with
    | nil =>
      rw [joinLines]
      exact (hmem l (by simp)).1
    | cons l2 t2 =>
      rw [joinLines]
      have hJ : rstripL (joinLines (l2 :: t2)) = joinLines (l2 :: t2) := by
        apply ih
        intro x hx
        exact hmem x (by simp [hx])
      have hJne : joinLines (l2 :: t2) ≠ [] := by
        obtain ⟨rest, hr⟩ := joinLines_cons l2 t2
        rw [hr]
        have := (hmem l2 (by simp)).2
        intro hx
        rcases List.append_eq_nil.mp hx with ⟨h1, _⟩
        exact this h1
      have hnl : rstripL ('\n' :: joinLines (l2 :: t2)) =
          '\n' :: joinLines (l2 :: t2) := by
        have := rstripL_append_of_ne_nil ['\n'] (joinLines (l2 :: t2))
          (by rw [hJ]; exact hJne)
        rw [hJ] at this
        simpa using this
      have := rstripL_append_of_ne_nil l ('\n' :: joinLines (l2 :: t2))
        (by rw [hnl]; simp)
      rw [hnl] at this
      exact this

/-- The normalizer's output never starts or ends with whitespace:
stripping it is a no-op. -/
theorem strip_output (forest : NodeList) :
    stripL (parse_html_to_text forest) = parse_html_to_text forest := by
  unfold parse_html_to_text
  cases hfl : finalLines forest with
  | nil => rfl
  | cons l0 ls =>
    have hmem : ∀ l ∈ l0 :: ls, rstripL l = l ∧ l ≠ [] := by
      intro l hl
      have := mem_finalLines forest l (by rw [hfl]; exact hl)
      exact ⟨this.2.2, this.1⟩
    have hl0ne : l0 ≠ [] := (hmem l0 (by simp)).2
    -- the first final line starts with a non-whitespace character
    have hhead : ∃ c t0, l0 = c :: t0 ∧ pyWS c = false := by
      have hfind : (parse_children forest 0 none).filter nonBlank ≠ [] := by
        intro hx
        unfold finalLines at hfl
        rw [hx] at hfl
        simp at hfl
      cases hft : (parse_children forest 0 none).filter nonBlank with
      | nil => exact absurd hft hfind
      | cons m0 ms =>
        have hl0 : l0 = rstripL m0 := by
          unfold finalLines at hfl
          rw [hft] at hfl
          rw [List.map_cons] at hfl
          exact List.head_eq_of_cons_eq hfl.symm
        have hfq : (parse_children forest 0 none).find? nonBlank = some m0 := by
          rw [← head_filter_eq_find, hft]
          rfl
        have hnw := firstNB_list forest none m0 hfq
        cases hm0 : m0 with
        | nil => rw [hm0] at hnw; simp [headNotWS] at hnw
        | cons c t0 =>
          rw [hm0] at hnw
          have hc : pyWS c = false := by
            rw [headNotWS] at hnw
            simpa using hnw
          have hrne : rstripL m0 ≠ [] := by rw [← hl0]; exact hl0ne
          have hh : (rstripL m0).head? = some c := by
            rw [rstripL_head m0 hrne, hm0]
            rfl
          cases hl0x : l0 with
          | nil => exact absurd hl0x hl0ne
          | cons a b =>
            refine ⟨a, b, rfl, ?_⟩
            rw [← hl0, hl0x] at hh
            have : a = c := by
              simp at hh
              exact hh
            rw [this]
            exact hc
    obtain ⟨c, t0, hl0eq, hc⟩ := hhead
    obtain ⟨rest, hjoin⟩ := joinLines_cons l0 ls
    have hout : joinLines (l0 :: ls) = c :: (t0 ++ rest) := by
      rw [hjoin, hl0eq]
      rfl
    have hrs : rstripL (joinLines (l0 :: ls)) = joinLines (l0 :: ls) :=
      rstrip_joinLines (l0 :: ls) hmem
    unfold stripL
    rw [hrs, hout]
    exact lstripL_cons_false c (t0 ++ rest) hc

/-!
## Claims
-/

/-- C1 (counterexample): the claim "for every input, splitting the output on
newline gives no empty or whitespace-only line" fails: the input text
`"a\n \nb"` (one text node, no tags) passes through unchanged, and its
newline-split contains the whitespace-only line `" "`. -/
theorem C1_counterexample :
    splitLinesPy (parse_html_to_text (nodes [Node.text "a\n \nb"])) =
      ["a".data, " ".data, "b".data] ∧
    stripL " ".data = [] ∧
    ¬ (∀ l ∈ splitLinesPy (parse_html_to_text (nodes [Node.text "a\n \nb"])),
        stripL l ≠ []) := by
  refine ⟨by decide, by decide, by decide⟩

/-- C1 (amended): every line of the normalizer's final emitted line list
(whose newline-join is the returned string) is non-empty and not
whitespace-only.  (Splitting the joined output on newline can still produce
blank lines when a single emitted text line contains an embedded newline, and
the empty output splits into one empty line.) -/
theorem C1_no_blank_lines (forest : NodeList) (l : List Char)
    (h : l ∈ finalLines forest) : l ≠ [] ∧ stripL l ≠ [] :=
  ⟨(mem_finalLines forest l h).1, (mem_finalLines forest l h).2.1⟩

/-- C1 witness: instantiation at a concrete document. -/
theorem C1_witness :
    "hi".data ∈ finalLines (nodes [Node.text "hi"]) ∧
      ("hi".data ≠ [] ∧ stripL "hi".data ≠ []) :=
  ⟨by decide, C1_no_blank_lines (nodes [Node.text "hi"]) "hi".data (by decide)⟩

/-- C2 (counterexample): `<ul><li>A<ul><li>B</li></ul></li></ul>` normalizes
to `"- A"` followed by `"    - B"` (four leading spaces), not the claimed
`"  - B"`: subsequent sublines get `indent+2` spaces *prepended to* their
existing indentation, not re-indented to exactly `indent+2`. -/
theorem C2_counterexample :
    parse_html_to_text (nodes [.elem "ul" [] (nodes
      [.elem "li" [] (nodes [.text "A",
        .elem "ul" [] (nodes [.elem "li" [] (nodes [.text "B"])])])])]) =
      "- A\n    - B".data ∧
    parse_html_to_text (nodes [.elem "ul" [] (nodes
      [.elem "li" [] (nodes [.text "A",
        .elem "ul" [] (nodes [.elem "li" [] (nodes [.text "B"])])])])]) ≠
      "- A\n  - B".data := by
  refine ⟨by decide, by decide⟩

/-- C2 (amended): when an `li`'s children produce sublines, the first subline
is left-stripped and gets the bullet prepended at the item's indent, and each
subsequent subline is emitted with `indent+2` *additional* spaces prepended to
its original text; hence the nested example yields `"- A"` then `"    - B"`. -/
theorem C2_li_sublines :
    (∀ (attrs : List (String × String)) (children : NodeList) (indent : Nat)
      (listType : Option String) (first : List Char) (rest : List (List Char)),
      parse_children children (indent + 2) none = first :: rest →
      parse_node (.elem "li" attrs children) indent listType =
        (spacesL indent ++
          ((if listType ≠ some "ol" then "- ".data else "1. ".data) ++
            lstripL first)) ::
          rest.map (fun line => spacesL (indent + 2) ++ line)) ∧
    parse_html_to_text (nodes [.elem "ul" [] (nodes
      [.elem "li" [] (nodes [.text "A",
        .elem "ul" [] (nodes [.elem "li" [] (nodes [.text "B"])])])])]) =
      "- A\n    - B".data := by
  constructor
  · intro attrs children indent listType first rest h
    simp [parse_node, h]
  · decide

/-- C2 witness: instantiation of the subline rule at a concrete item. -/
theorem C2_witness :
    parse_children (nodes [Node.text "x"]) (0 + 2) none = ["  x".data] ∧
    parse_node (.elem "li" [] (nodes [Node.text "x"])) 0 none =
      (spacesL 0 ++
        ((if (none : Option String) ≠ some "ol" then "- ".data else "1. ".data) ++
          lstripL "  x".data)) ::
        ([] : List (List Char)).map (fun line => spacesL (0 + 2) ++ line) :=
  ⟨by decide,
    C2_li_sublines.1 [] (nodes [Node.text "x"]) 0 none "  x".data [] (by decide)⟩

/-- C3 (counterexample): the clause "a line with no matches yields exactly one
non-bold run equal to the whole line" fails for the empty line, which has no
matches but yields zero runs (the code only emits the trailing run when
`last_end < len(line)`). -/
theorem C3_counterexample :
    findMatch "".data = none ∧ decodeLine "".data = [] ∧
      decodeLine "".data ≠ [("".data, false)] := by
  refine ⟨by decide, by decide, by decide⟩

/-- C3 (amended): the decoder scans left to right for non-overlapping
`**...**` matches, emitting the text before each match as a non-bold run only
if non-empty and the interior as a bold run, then continues past the match; a
*non-empty* line with no matches yields exactly one non-bold run equal to the
whole line (the empty line yields no runs); the example line decodes to three
runs; and re-inserting the markers around the bold runs reconstructs the
original line. -/
theorem C3_decoding_contract :
    (∀ cs : List Char, findMatch cs = none → cs ≠ [] →
        decodeLine cs = [(cs, false)]) ∧
    (∀ cs p i r : List Char, findMatch cs = some (p, i, r) →
        decodeLine cs =
          (if p.isEmpty then [] else [(p, false)]) ++ (i, true) :: decodeLine r) ∧
    decodeLine "Hello **world** today".data =
      [("Hello ".data, false), ("world".data, true), (" today".data, false)] ∧
    (∀ cs : List Char, reencodeRuns (decodeLine cs) = cs) := by
  refine ⟨decodeLine_noMatch, decodeLine_step, by decide, reencode_decodeLine⟩

/-- C3 witness: instantiations of the two conditional clauses. -/
theorem C3_witness :
    (findMatch "abc".data = none ∧ "abc".data ≠ [] ∧
      decodeLine "abc".data = [("abc".data, false)]) ∧
    (findMatch "**x**y".data = some ([], "x".data, "y".data) ∧
      decodeLine "**x**y".data =
        (if ([] : List Char).isEmpty then [] else [(([] : List Char), false)]) ++
          ("x".data, true) :: decodeLine "y".data) :=
  ⟨⟨by decide, by decide, C3_decoding_contract.1 "abc".data (by decide) (by decide)⟩,
   ⟨by decide,
    C3_decoding_contract.2.1 "**x**y".data [] "x".data "y".data (by decide)⟩⟩

/-- C4: the normalizer is idempotent on its own output: re-normalizing the
returned text (which, containing no tags, parses as a single text node) is a
no-op.  This holds because the output never starts or ends with whitespace,
so the initial strip of the text node does not change it. -/
theorem C4_idempotent (forest : NodeList) :
    parse_html_to_text (nodes [Node.text (String.mk (parse_html_to_text forest))]) =
      parse_html_to_text forest := by
  rw [round_text, strip_output]

/-- C5: every `li` line begins with the bullet `"- "` when the enclosing
list-type context is not `ol` and with the literal `"1. "` when it is, with
no per-item counter: `<ul><li>A</li><li>B</li></ul>` gives `- A` and `- B`,
`<ol><li>First</li></ol>` gives `1. First`, and a two-item `ol` gives
`1. A` and `1. B`. -/
theorem C5_bullets :
    (∀ (attrs : List (String × String)) (children : NodeList) (indent : Nat)
        (listType : Option String), ∃ tail rest,
        parse_node (.elem "li" attrs children) indent listType =
          (spacesL indent ++
            ((if listType ≠ some "ol" then "- ".data else "1. ".data) ++ tail)) ::
            rest) ∧
    parse_html_to_text (nodes [.elem "ul" [] (nodes
      [.elem "li" [] (nodes [.text "A"]), .elem "li" [] (nodes [.text "B"])])]) =
      "- A\n- B".data ∧
    parse_html_to_text (nodes [.elem "ol" [] (nodes
      [.elem "li" [] (nodes [.text "First"])])]) = "1. First".data ∧
    parse_html_to_text (nodes [.elem "ol" [] (nodes
      [.elem "li" [] (nodes [.text "A"]), .elem "li" [] (nodes [.text "B"])])]) =
      "1. A\n1. B".data := by
  refine ⟨?_, by decide, by decide, by decide⟩
  intro attrs children indent listType
  cases hsub : parse_children children (indent + 2) none with
  | nil =>
    refine ⟨[], [], ?_⟩
    simp [parse_node, hsub]
  | cons first rest =>
    refine ⟨lstripL first, rest.map (fun line => spacesL (indent + 2) ++ line), ?_⟩
    simp [parse_node, hsub]

/-- C6: a line whose double-asterisk occurrences admit no complete `**...**`
match decodes to a single non-bold run equal to the original line, literal
asterisks included. -/
theorem C6_unmatched_literal (cs : List Char) (h1 : hasStarPair cs = true)
    (h2 : findMatch cs = none) : decodeLine cs = [(cs, false)] :=
  decodeLine_noMatch cs h2 (hasStarPair_ne_nil cs h1)

/-- C6 witness: the spec's own example line. -/
theorem C6_witness :
    hasStarPair "**unterminated".data = true ∧
    findMatch "**unterminated".data = none ∧
    decodeLine "**unterminated".data = [("**unterminated".data, false)] :=
  ⟨by decide, by decide,
    C6_unmatched_literal "**unterminated".data (by decide) (by decide)⟩

/-- C7: an `li` always emits at least one line; when its children emit no
sublines it emits the bare bullet, which is not blank and therefore survives
the final filter; the example `<ul><li>  </li></ul>` normalizes to `-`. -/
theorem C7_li_always_emits :
    (∀ (attrs : List (String × String)) (children : NodeList) (indent : Nat)
        (listType : Option String),
        parse_node (.elem "li" attrs children) indent listType ≠ []) ∧
    (∀ (attrs : List (String × String)) (children : NodeList) (indent : Nat)
        (listType : Option String),
        parse_children children (indent + 2) none = [] →
        parse_node (.elem "li" attrs children) indent listType =
          [spacesL indent ++
            (if listType ≠ some "ol" then "- ".data else "1. ".data)] ∧
        nonBlank (spacesL indent ++
          (if listType ≠ some "ol" then "- ".data else "1. ".data)) = true) ∧
    parse_html_to_text (nodes [.elem "ul" [] (nodes [.elem "li" [] (nodes
      [.text "  "])])]) = "-".data := by
  refine ⟨?_, ?_, by decide⟩
  · intro attrs children indent listType
    cases hsub : parse_children children (indent + 2) none with
    | nil => simp [parse_node, hsub]
    | cons first rest => simp [parse_node, hsub]
  · intro attrs children indent listType h
    constructor
    · simp [parse_node, h]
    · unfold nonBlank
      rw [stripL_spaces_append]
      by_cases ht : listType = some "ol"
      · simp [ht]
        decide
      · simp [ht]
        decide

/-- C7 witness: an `li` with no children emits the bare bullet. -/
theorem C7_witness :
    parse_children (nodes []) (0 + 2) none = [] ∧
    (parse_node (.elem "li" [] (nodes [])) 0 none =
      [spacesL 0 ++
        (if (none : Option String) ≠ some "ol" then "- ".data else "1. ".data)] ∧
     nonBlank (spacesL 0 ++
        (if (none : Option String) ≠ some "ol" then "- ".data else "1. ".data)) =
       true) :=
  ⟨by decide, C7_li_always_emits.2.1 [] (nodes []) 0 none (by decide)⟩

/-- C8: an `a` element emits exactly one line: the stripped visible text
wrapped as `[text](href)` when the `href` attribute is present and non-empty,
else just the visible text; `<a href="http://x">click</a>` gives
`[click](http://x)`. -/
theorem C8_anchor :
    (∀ (attrs : List (String × String)) (children : NodeList) (indent : Nat)
        (listType : Option String),
        parse_node (.elem "a" attrs children) indent listType =
          [spacesL indent ++
            (if getAttr attrs "href" ≠ "" then
              "[".data ++ getTextStripList children ++ "](".data ++
                (getAttr attrs "href").data ++ ")".data
            else getTextStripList children)]) ∧
    parse_html_to_text (nodes [.elem "a" [("href", "http://x")]
      (nodes [.text "click"])]) = "[click](http://x)".data := by
  refine ⟨?_, by decide⟩
  intro attrs children indent listType
  simp [parse_node]

/-- C10: the decoding is lossless: wrapping each bold run's text back in the
two-character markers and concatenating all runs in order reproduces the
original line character for character. -/
theorem C10_lossless (cs : List Char) : reencodeRuns (decodeLine cs) = cs :=
  reencode_decodeLine cs

end CRetriever
